import Mathlib

/-!
Shallow embedding of the cross-partition ordered query merge engine from
`azure/cosmos/_execution_context/aio/document_producer.py`, together with
proofs about its comparators, producer buffer, and merge behaviour.
-/

namespace CosmosMerge

/-- Python runtime values that can appear as an orderby item value or as a
partition-range bound: `None`, a boolean, a number (modelled as an exactly
representable rational), a string, or some other object (array, dict, ...)
identified only by a tag. -/
inductive PyValue where
  | null
  | bool (b : Bool)
  | num (q : ℚ)
  | str (s : String)
  | other (tag : String)
  deriving DecidableEq

/-- Python exceptions raised by the embedded code. -/
inductive PyErr where
  | valueError (msg : String)
  | typeError (msg : String)
  | indexError
  | keyError
  | stopAsyncIteration
  deriving DecidableEq

/-- Evaluation of Python's `a < b` on the values above: numbers and booleans
compare numerically (False = 0, True = 1), strings compare lexicographically,
and any other combination raises `TypeError` (in particular `None` never
supports `<`). -/
def pyLt : PyValue → PyValue → Except PyErr Bool
  | .bool a, .bool b => .ok (decide ((if a then (1 : ℚ) else 0) < (if b then (1 : ℚ) else 0)))
  | .bool a, .num b => .ok (decide ((if a then (1 : ℚ) else 0) < b))
  | .num a, .bool b => .ok (decide (a < (if b then (1 : ℚ) else 0)))
  | .num a, .num b => .ok (decide (a < b))
  | .str a, .str b => .ok (decide (a < b))
  | _, _ => .error (.typeError "unorderable types")

/-- Evaluation of Python's `a > b`, which for these built-in types agrees with
`b < a`. -/
def pyGt (a b : PyValue) : Except PyErr Bool := pyLt b a

/-- `_compare_helper(a, b)`: `0` when both operands are `None`, otherwise the
Python expression `(a > b) - (a < b)` (which raises `TypeError` when exactly
one operand is `None`). -/
def compare_helper (a b : PyValue) : Except PyErr Int :=
  if a = .null ∧ b = .null then .ok 0
  else
    match pyGt a b with
    | .error e => .error e
    | .ok g =>
      match pyLt a b with
      | .error e => .error e
      | .ok l => .ok ((if g then 1 else 0) - (if l then 1 else 0))

/-- An orderby item dict: `Option.none` models a dict without an `"item"` key
(the Undefined value), `some v` models `{"item": v}`. -/
abbrev OrderByItem := Option PyValue

/-- `_OrderByHelper.getTypeOrd`: 0 for a missing `"item"` key, 1 for `None`,
2 for a boolean, 4 for a number, 5 for a string; any other value raises
`TypeError`. -/
def getTypeOrd : OrderByItem → Except PyErr Nat
  | Option.none => .ok 0
  | some .null => .ok 1
  | some (.bool _) => .ok 2
  | some (.num _) => .ok 4
  | some (.str _) => .ok 5
  | some (.other tag) => .error (.typeError ("unknown type" ++ tag))

/-- `_OrderByHelper.getTypeStr`: the string representation of the type of the
orderby item value; any value outside the expected universe raises
`TypeError`. -/
def getTypeStr : OrderByItem → Except PyErr String
  | Option.none => .ok "NoValue"
  | some .null => .ok "Null"
  | some (.bool _) => .ok "Boolean"
  | some (.num _) => .ok "Number"
  | some (.str _) => .ok "String"
  | some (.other tag) => .error (.typeError ("unknown type" ++ tag))

/-- `_OrderByHelper.compare`: compare two orderby item pairs, deciding by type
ordinal first and by value (via `_compare_helper`) when the ordinals agree and
are not the Undefined ordinal. -/
def OrderByHelper.compare (o1 o2 : OrderByItem) : Except PyErr Int :=
  match getTypeOrd o1 with
  | .error e => .error e
  | .ok t1 =>
    match getTypeOrd o2 with
    | .error e => .error e
    | .ok t2 =>
      if (t1 : Int) - (t2 : Int) ≠ 0 then .ok ((t1 : Int) - (t2 : Int))
      else if t1 = 0 then .ok 0
      else
        match o1, o2 with
        | some v1, some v2 => compare_helper v1 v2
        | _, _ => .error .keyError

/-- The type-string check of `_validate_orderby_items`: walk the zipped lists
and raise `ValueError` naming the expected and observed type strings at the
first position where they differ. -/
def validateTypes : List OrderByItem → List OrderByItem → Except PyErr Unit
  | e1 :: r1, e2 :: r2 =>
    match getTypeStr e1 with
    | .error e => .error e
    | .ok t1 =>
      match getTypeStr e2 with
      | .error e => .error e
      | .ok t2 =>
        if t1 ≠ t2 then
          .error (.valueError ("Expected " ++ t1 ++ ", but got " ++ t2 ++ "."))
        else validateTypes r1 r2
  | _, _ => .ok ()

/-- `_OrderByDocumentProducerComparator._validate_orderby_items`: the two key
lists must have equal length, that length must match the sort order length,
and the type strings must agree position by position. -/
def validate_orderby_items (sort_order : List String) (res1 res2 : List OrderByItem) :
    Except PyErr Unit :=
  if res1.length ≠ res2.length then
    .error (.valueError "orderByItems cannot have different size")
  else if res1.length ≠ sort_order.length then
    .error (.valueError "orderByItems cannot have a different size than sort orders.")
  else validateTypes res1 res2

/-- The position loop of `_OrderByDocumentProducerComparator.compare`: compare
the zipped key lists position by position, returning the first non-zero
single-key comparison (negated under a `"Descending"` direction), continuing
past it when the direction string is neither `"Ascending"` nor
`"Descending"`, and raising `IndexError` when a deciding position has no
corresponding sort order entry. `none` means every consulted position tied. -/
def orderByLoop : List String → List OrderByItem → List OrderByItem → Except PyErr (Option Int)
  | ds, e1 :: r1, e2 :: r2 =>
    match OrderByHelper.compare e1 e2 with
    | .error e => .error e
    | .ok res =>
      if res = 0 then orderByLoop ds.tail r1 r2
      else
        match ds with
        | [] => .error .indexError
        | d :: _ =>
          if d = "Ascending" then .ok (some res)
          else if d = "Descending" then .ok (some (-res))
          else orderByLoop ds.tail r1 r2
  | _, _, _ => .ok none

/-- The fields of a `_DocumentProducer` consulted by the comparators: the
`orderByItems` of its peeked result and the `minInclusive` bound of its
target partition key range. -/
structure ProducerView where
  orderByItems : List OrderByItem
  minInclusive : PyValue
  deriving DecidableEq

/-- `_PartitionKeyRangeDocumentProducerComparator.compare`: natural
comparison (via `_compare_helper`) of the two target ranges' `minInclusive`
bounds. -/
def pkRangeCompare (p1 p2 : ProducerView) : Except PyErr Int :=
  compare_helper p1.minInclusive p2.minInclusive

/-- `_OrderByDocumentProducerComparator.compare`: validate the two peeked key
lists, decide at the first non-zero single-key comparison with the direction
sign applied, and fall back to the partition-range comparator when every
position ties. -/
def orderByCompare (sort_order : List String) (p1 p2 : ProducerView) : Except PyErr Int :=
  match validate_orderby_items sort_order p1.orderByItems p2.orderByItems with
  | .error e => .error e
  | .ok _ =>
    match orderByLoop sort_order p1.orderByItems p2.orderByItems with
    | .error e => .error e
    | .ok (some r) => .ok r
    | .ok none => pkRangeCompare p1 p2

/-- `_NonStreamingOrderByComparator.compare` applied to the two item results'
`orderByItems` lists: compare only the first orderby key, negating the result
when the first sort order entry is `"Descending"`. -/
def nonStreamingCompare (sort_order : List String) (items1 items2 : List OrderByItem) :
    Except PyErr Int :=
  match items1 with
  | [] => .error .indexError
  | rank1 :: _ =>
    match items2 with
    | [] => .error .indexError
    | rank2 :: _ =>
      match OrderByHelper.compare rank1 rank2 with
      | .error e => .error e
      | .ok res =>
        if res ≠ 0 then
          match sort_order with
          | [] => .error .indexError
          | d :: _ => if d = "Descending" then .ok (-res) else .ok res
        else .ok res

/-- Modelled from the spec: the underlying `_DefaultQueryExecutionContext`
(whose implementation is not among the extracted sources) is abstracted as
the stream of items it will yield, together with a count of the underlying
fetches (`__anext__` calls) performed so far; each fetch yields one buffered
item or signals exhaustion. -/
structure ExContext (α : Type) where
  items : List α
  fetchCount : Nat
  deriving DecidableEq

/-- One underlying fetch: yield the next item (counting the fetch) or raise
`StopAsyncIteration` when the stream is exhausted. -/
def ExContext.anext {α : Type} : ExContext α → Except PyErr (α × ExContext α)
  | ⟨[], _⟩ => .error .stopAsyncIteration
  | ⟨x :: rest, n⟩ => .ok (x, ⟨rest, n + 1⟩)

/-- The mutable state of `_DocumentProducer`: the one-element lookahead
buffer `_cur_item` and the execution context it draws from. -/
structure DocumentProducer (α : Type) where
  cur_item : Option α
  ex : ExContext α
  deriving DecidableEq

/-- `_DocumentProducer.peek`: populate `_cur_item` from the execution context
if it is empty, then return the buffered item without consuming it. -/
def DocumentProducer.peek {α : Type} : DocumentProducer α → Except PyErr (α × DocumentProducer α)
  | ⟨some x, ex⟩ => .ok (x, ⟨some x, ex⟩)
  | ⟨Option.none, ex⟩ =>
    match ex.anext with
    | .error e => .error e
    | .ok (x, ex2) => .ok (x, ⟨some x, ex2⟩)

/-- `_DocumentProducer.__anext__`: return and clear the buffered item if one
is present, otherwise pull directly from the execution context. -/
def DocumentProducer.anext {α : Type} : DocumentProducer α → Except PyErr (α × DocumentProducer α)
  | ⟨some x, ex⟩ => .ok (x, ⟨Option.none, ex⟩)
  | ⟨Option.none, ex⟩ =>
    match ex.anext with
    | .error e => .error e
    | .ok (x, ex2) => .ok (x, ⟨Option.none, ex2⟩)

/-- An orderby item drawn from the closed type universe the comparators
support (no array/object values). -/
def cleanItem : OrderByItem → Bool
  | some (.other _) => false
  | _ => true

/-- The type ordinal as a total function (with a junk value for items outside
the closed universe), used only to state ordering facts. -/
def ordOf : OrderByItem → ℕ
  | Option.none => 0
  | some .null => 1
  | some (.bool _) => 2
  | some (.num _) => 4
  | some (.str _) => 5
  | some (.other _) => 6

/-- The numeric content of an orderby item (False = 0, True = 1), junk 0 for
non-numeric items. -/
def ratOf : OrderByItem → ℚ
  | some (.bool b) => if b then 1 else 0
  | some (.num q) => q
  | _ => 0

/-- The string content of an orderby item, junk `""` for non-strings. -/
def strOf : OrderByItem → String
  | some (.str s) => s
  | _ => ""

/-- The strict order on orderby items induced by the comparator: type ordinal
first, then numeric content, then string content. -/
def keyLt (a b : OrderByItem) : Prop :=
  ordOf a < ordOf b ∨
    (ordOf a = ordOf b ∧ (ratOf a < ratOf b ∨ (ratOf a = ratOf b ∧ strOf a < strOf b)))

/-- The numeric content of a Python value under Python's numeric comparison
(False = 0, True = 1); `none` for non-numeric values. -/
def numv : PyValue → Option ℚ
  | .bool b => some (if b then 1 else 0)
  | .num q => some q
  | _ => Option.none

/-! ### Model of the merge coordinator (spec-modelled) -/

/-- Modelled from the spec: a live producer as seen by the coordinator of
§4.4, for a query with a single ascending numeric orderby key. The
coordinator holds, per producer, its partition range `minInclusive` bound,
the peeked-but-unconsumed item, and the locally-sorted items still to come
(the page structure is flattened: the producer presents pages as one
sequence). The coordinator implementation is not among the extracted
sources; it is modelled from the spec's selection loop. -/
structure MergeProducer where
  minInclusive : String
  peeked : ℚ
  rest : List ℚ
  deriving DecidableEq

/-- The whole remaining stream of a live producer. -/
def pStream (p : MergeProducer) : List ℚ := p.peeked :: p.rest

/-- The comparator view of a live producer: its peeked result carries one
numeric orderby item, and its range carries the `minInclusive` bound. -/
def MergeProducer.toView (p : MergeProducer) : ProducerView :=
  ⟨[some (.num p.peeked)], .str p.minInclusive⟩

/-- Modelled from the spec: the coordinator compares two live producers with
the orderby comparator (single Ascending key) on their peeked results. -/
def mergeCompare (p q : MergeProducer) : Except PyErr Int :=
  orderByCompare ["Ascending"] p.toView q.toView

/-- Modelled from the spec: scan the live set for the minimal producer under
the comparator, returning it together with the remaining producers. -/
def extractMin : MergeProducer → List MergeProducer →
    Except PyErr (MergeProducer × List MergeProducer)
  | best, [] => .ok (best, [])
  | best, c :: rest =>
    match mergeCompare c best with
    | .error e => .error e
    | .ok r =>
      if r < 0 then
        match extractMin c rest with
        | .error e => .error e
        | .ok (m, others) => .ok (m, best :: others)
      else
        match extractMin best rest with
        | .error e => .error e
        | .ok (m, others) => .ok (m, c :: others)

/-- Modelled from the spec: advancing a producer past its peeked item;
an exhausted producer is dropped from the live set. -/
def MergeProducer.advance (p : MergeProducer) : List MergeProducer :=
  match p.rest with
  | [] => []
  | x :: r => [⟨p.minInclusive, x, r⟩]

/-- Total number of items still held by the live producers. -/
def sizeOfPs (ps : List MergeProducer) : Nat := (ps.map fun p => 1 + p.rest.length).sum

/-- Modelled from the spec: the coordinator's selection loop. Each step
extracts the minimal producer under the comparator, emits its peeked item,
advances it, and re-inserts it if not exhausted. The fuel argument is a
recursion bound; it is sufficient whenever it is at least the total number
of remaining items. -/
def mergeRun : Nat → List MergeProducer → Except PyErr (List ℚ)
  | _, [] => .ok []
  | 0, _ :: _ => .error .stopAsyncIteration
  | fuel + 1, p :: rest =>
    match extractMin p rest with
    | .error e => .error e
    | .ok (m, others) =>
      match mergeRun fuel (m.advance ++ others) with
      | .error e => .error e
      | .ok out => .ok (m.peeked :: out)

/-- Modelled from the spec: on the first pull every producer is peeked and
producers reporting end-of-sequence are dropped; each partition supplies its
items as a sequence of pages which the producer flattens into one stream. -/
def initProducers (streams : List (String × List (List ℚ))) : List MergeProducer :=
  streams.filterMap fun s =>
    match s.2.flatten with
    | [] => Option.none
    | x :: r => some ⟨s.1, x, r⟩

/-! ### Facts about the single-key comparison -/



theorem keyLt_trans {a b c : OrderByItem} (h1 : keyLt a b) (h2 : keyLt b c) : keyLt a c := by
  rcases h1 with h1 | ⟨ho1, h1⟩ <;> rcases h2 with h2 | ⟨ho2, h2⟩
  · exact Or.inl (lt_trans h1 h2)
  · exact Or.inl (lt_of_lt_of_eq h1 ho2)
  · exact Or.inl (lt_of_eq_of_lt ho1 h2)
  · right
    refine ⟨ho1.trans ho2, ?_⟩
    rcases h1 with h1 | ⟨hr1, h1⟩ <;> rcases h2 with h2 | ⟨hr2, h2⟩
    · exact Or.inl (lt_trans h1 h2)
    · exact Or.inl (lt_of_lt_of_eq h1 hr2)
    · exact Or.inl (lt_of_eq_of_lt hr1 h2)
    · exact Or.inr ⟨hr1.trans hr2, lt_trans h1 h2⟩

theorem keyLt_irrefl (a : OrderByItem) : ¬ keyLt a a := by
  rintro (h | ⟨_, h | ⟨_, h⟩⟩) <;> exact absurd h (lt_irrefl _)

theorem cmp2_sign {α : Type} [LinearOrder α] (a b : α) :
    (((if b < a then (1 : Int) else 0) - (if a < b then 1 else 0)) < 0 ↔ a < b) ∧
    (((if b < a then (1 : Int) else 0) - (if a < b then 1 else 0)) = 0 ↔ a = b) ∧
    (0 < ((if b < a then (1 : Int) else 0) - (if a < b then 1 else 0)) ↔ b < a) := by
  rcases lt_trichotomy a b with h | h | h
  · simp [h, lt_asymm h, ne_of_lt h]
  · subst h
    simp [lt_irrefl]
  · simp [h, lt_asymm h, ne_of_gt h]

/-- Single-key comparisons on clean items always succeed. -/
theorem single_ok {e1 e2 : OrderByItem} (h1 : cleanItem e1 = true) (h2 : cleanItem e2 = true) :
    ∃ r : Int, OrderByHelper.compare e1 e2 = .ok r := by
  rcases e1 with _ | (_ | b1 | q1 | s1 | t1) <;> rcases e2 with _ | (_ | b2 | q2 | s2 | t2) <;>
    simp_all [OrderByHelper.compare, getTypeOrd, compare_helper, pyGt, pyLt, cleanItem]

/-- A successful single-key comparison forces both items clean. -/
theorem clean_of_single_ok {e1 e2 : OrderByItem} {r : Int}
    (h : OrderByHelper.compare e1 e2 = .ok r) : cleanItem e1 = true ∧ cleanItem e2 = true := by
  rcases e1 with _ | (_ | b1 | q1 | s1 | t1) <;> rcases e2 with _ | (_ | b2 | q2 | s2 | t2) <;>
    simp_all [OrderByHelper.compare, getTypeOrd, cleanItem]

/-- Sign characterization of the single-key comparison: negative exactly on
`keyLt`, zero exactly on equal items, positive exactly on reversed `keyLt`. -/
theorem single_sign {e1 e2 : OrderByItem} {r : Int}
    (h : OrderByHelper.compare e1 e2 = .ok r) :
    (r < 0 ↔ keyLt e1 e2) ∧ (r = 0 ↔ e1 = e2) ∧ (0 < r ↔ keyLt e2 e1) := by
  rcases e1 with _ | (_ | b1 | q1 | s1 | t1) <;> rcases e2 with _ | (_ | b2 | q2 | s2 | t2) <;>
    first
      | (simp_all [OrderByHelper.compare, getTypeOrd, compare_helper, pyGt, pyLt, keyLt, ordOf,
            ratOf, strOf, lt_irrefl] <;> omega)
      | (rcases b1 with _ | _ <;> rcases b2 with _ | _ <;>
          simp_all [OrderByHelper.compare, getTypeOrd, compare_helper, pyGt, pyLt, keyLt, ordOf,
            ratOf, strOf, (show ¬ ((1:ℚ) < 0) by norm_num), (show (0:ℚ) < 1 by norm_num)] <;>
          try omega)
      | (rcases lt_trichotomy q1 q2 with hx | hx | hx
         case _ =>
           simp_all [OrderByHelper.compare, getTypeOrd, compare_helper, pyGt, pyLt, keyLt, ordOf,
             ratOf, strOf, lt_irrefl, lt_asymm hx, ne_of_lt hx, ne_of_gt hx]
           try omega
         case _ =>
           subst hx
           simp_all [OrderByHelper.compare, getTypeOrd, compare_helper, pyGt, pyLt, keyLt, ordOf,
             ratOf, strOf, lt_irrefl]
         case _ =>
           simp_all [OrderByHelper.compare, getTypeOrd, compare_helper, pyGt, pyLt, keyLt, ordOf,
             ratOf, strOf, lt_irrefl, lt_asymm hx, ne_of_lt hx, ne_of_gt hx]
           try omega)
      | (rcases lt_trichotomy s1 s2 with hx | hx | hx
         case _ =>
           simp_all [OrderByHelper.compare, getTypeOrd, compare_helper, pyGt, pyLt, keyLt, ordOf,
             ratOf, strOf, lt_irrefl, lt_asymm hx, ne_of_lt hx, ne_of_gt hx]
           try omega
         case _ =>
           subst hx
           simp_all [OrderByHelper.compare, getTypeOrd, compare_helper, pyGt, pyLt, keyLt, ordOf,
             ratOf, strOf, lt_irrefl]
         case _ =>
           simp_all [OrderByHelper.compare, getTypeOrd, compare_helper, pyGt, pyLt, keyLt, ordOf,
             ratOf, strOf, lt_irrefl, lt_asymm hx, ne_of_lt hx, ne_of_gt hx]
           try omega)

/-- `_compare_helper` is antisymmetric wherever it succeeds. -/
theorem compare_helper_neg {a b : PyValue} {r : Int} (h : compare_helper a b = .ok r) :
    compare_helper b a = .ok (-r) := by
  unfold compare_helper at h ⊢
  by_cases hab : a = PyValue.null ∧ b = PyValue.null
  · have hba : b = PyValue.null ∧ a = PyValue.null := ⟨hab.2, hab.1⟩
    rw [if_pos hab] at h
    rw [if_pos hba]
    injection h with h
    rw [← h]
    norm_num
  · have hba : ¬ (b = PyValue.null ∧ a = PyValue.null) := fun hx => hab ⟨hx.2, hx.1⟩
    rw [if_neg hab] at h
    rw [if_neg hba]
    unfold pyGt at h ⊢
    rcases hg : pyLt b a with e | g
    · rw [hg] at h
      simp at h
    · rw [hg] at h
      rcases hl : pyLt a b with e | l
      · rw [hl] at h
        simp at h
      · rw [hl] at h
        cases g <;> cases l <;> simp_all <;> omega

/-- The single-key comparison is antisymmetric wherever it succeeds. -/
theorem single_neg {e1 e2 : OrderByItem} {r : Int}
    (h : OrderByHelper.compare e1 e2 = .ok r) :
    OrderByHelper.compare e2 e1 = .ok (-r) := by
  rcases e1 with _ | (_ | b1 | q1 | s1 | t1) <;> rcases e2 with _ | (_ | b2 | q2 | s2 | t2) <;>
    simp_all [OrderByHelper.compare, getTypeOrd, compare_helper, pyGt, pyLt] <;>
      first
        | omega
        | (simp only [← h]
           norm_num)

/-- Self-comparison of a clean item yields zero. -/
theorem single_self {e : OrderByItem} (h : cleanItem e = true) :
    OrderByHelper.compare e e = .ok 0 := by
  obtain ⟨r, hr⟩ := single_ok h h
  have h0 : r = 0 := (single_sign hr).2.1.mpr rfl
  rw [hr, h0]

/-! ### Facts about validation -/

/-- A type string computation succeeding forces the item clean. -/
theorem cleanItem_of_typeStr {e : OrderByItem} {t : String} (h : getTypeStr e = .ok t) :
    cleanItem e = true := by
  rcases e with _ | (_ | b | q | s | tg) <;> simp_all [getTypeStr, cleanItem]

/-- Inversion for one step of the type-string validation walk. -/
theorem validateTypes_cons_inv {e1 e2 : OrderByItem} {r1 r2 : List OrderByItem}
    (h : validateTypes (e1 :: r1) (e2 :: r2) = .ok ()) :
    ∃ t, getTypeStr e1 = .ok t ∧ getTypeStr e2 = .ok t ∧ validateTypes r1 r2 = .ok () := by
  rcases h1 : getTypeStr e1 with e | t1 <;>
    rcases h2 : getTypeStr e2 with e2m | t2 <;>
      simp only [validateTypes, h1, h2] at h
  · cases h
  · cases h
  · cases h
  · by_cases ht : t1 = t2
    · subst ht
      rw [if_neg (by simp)] at h
      exact ⟨t1, rfl, rfl, h⟩
    · rw [if_pos (by simpa using ht)] at h
      cases h

/-- The type-string validation walk is symmetric in success. -/
theorem validateTypes_symm {r1 r2 : List OrderByItem}
    (h : validateTypes r1 r2 = .ok ()) : validateTypes r2 r1 = .ok () := by
  induction r1 generalizing r2 with
  | nil => rcases r2 with _ | ⟨e2, r2⟩ <;> simp [validateTypes]
  | cons e1 t1 ih =>
    rcases r2 with _ | ⟨e2, t2⟩
    · simp [validateTypes]
    · obtain ⟨t, h1, h2, hrest⟩ := validateTypes_cons_inv h
      simp only [validateTypes, h1, h2]
      rw [if_neg (by simp)]
      exact ih hrest

/-- Items covered by a successful type-string validation are clean. -/
theorem validateTypes_clean {r1 r2 : List OrderByItem}
    (h : validateTypes r1 r2 = .ok ()) :
    ∀ p ∈ r1.zip r2, cleanItem p.1 = true ∧ cleanItem p.2 = true := by
  induction r1 generalizing r2 with
  | nil => simp
  | cons e1 t1 ih =>
    rcases r2 with _ | ⟨e2, t2⟩
    · simp
    · obtain ⟨t, h1, h2, hrest⟩ := validateTypes_cons_inv h
      intro p hp
      rcases List.mem_cons.mp hp with hp | hp
      · subst hp
        exact ⟨cleanItem_of_typeStr h1, cleanItem_of_typeStr h2⟩
      · exact ih hrest p hp

/-- Inversion of `_validate_orderby_items`: success forces equal key-list
lengths, agreement with the sort order length, and type-string success. -/
theorem validate_inv {so : List String} {r1 r2 : List OrderByItem}
    (h : validate_orderby_items so r1 r2 = .ok ()) :
    r1.length = r2.length ∧ r1.length = so.length ∧ validateTypes r1 r2 = .ok () := by
  unfold validate_orderby_items at h
  by_cases h1 : r1.length ≠ r2.length
  · rw [if_pos h1] at h
    cases h
  · rw [if_neg h1] at h
    by_cases h2 : r1.length ≠ so.length
    · rw [if_pos h2] at h
      cases h
    · rw [if_neg h2] at h
      exact ⟨not_ne_iff.mp h1, not_ne_iff.mp h2, h⟩

/-- `_validate_orderby_items` is symmetric in success. -/
theorem validate_symm {so : List String} {r1 r2 : List OrderByItem}
    (h : validate_orderby_items so r1 r2 = .ok ()) :
    validate_orderby_items so r2 r1 = .ok () := by
  obtain ⟨hl, hso, ht⟩ := validate_inv h
  unfold validate_orderby_items
  rw [if_neg (by omega), if_neg (by omega)]
  exact validateTypes_symm ht

/-- Unfolding `orderByCompare` once validation is known to succeed. -/
theorem orderByCompare_eq_of {so : List String} {p1 p2 : ProducerView}
    (hv : validate_orderby_items so p1.orderByItems p2.orderByItems = .ok ()) :
    orderByCompare so p1 p2 =
      match orderByLoop so p1.orderByItems p2.orderByItems with
      | .error e => .error e
      | .ok (some r) => .ok r
      | .ok none => pkRangeCompare p1 p2 := by
  unfold orderByCompare
  rw [hv]

/-- Inversion of `orderByCompare` success. -/
theorem orderByCompare_inv {so : List String} {p1 p2 : ProducerView} {r : Int}
    (h : orderByCompare so p1 p2 = .ok r) :
    validate_orderby_items so p1.orderByItems p2.orderByItems = .ok () ∧
      (orderByLoop so p1.orderByItems p2.orderByItems = .ok (some r) ∨
        (orderByLoop so p1.orderByItems p2.orderByItems = .ok none ∧
          pkRangeCompare p1 p2 = .ok r)) := by
  unfold orderByCompare at h
  rcases hv : validate_orderby_items so p1.orderByItems p2.orderByItems with e | u
  · rw [hv] at h
    cases h
  · cases u
    rw [hv] at h
    refine ⟨rfl, ?_⟩
    rcases hl : orderByLoop so p1.orderByItems p2.orderByItems with e | x
    · rw [hl] at h
      cases h
    · rw [hl] at h
      rcases x with _ | s
      · exact Or.inr ⟨rfl, h⟩
      · cases h
        exact Or.inl rfl

/-! ### Facts about the position loop -/

/-- A decided position loop never reports zero. -/
theorem loop_some_ne_zero {ds : List String} {a b : List OrderByItem} {r : Int}
    (h : orderByLoop ds a b = .ok (some r)) : r ≠ 0 := by
  induction a generalizing ds b with
  | nil => simp [orderByLoop] at h
  | cons e1 r1 ih =>
    rcases b with _ | ⟨e2, r2⟩
    · simp [orderByLoop] at h
    rw [orderByLoop] at h
    rcases ds with _ | ⟨d, ds2⟩ <;>
      rcases hc : OrderByHelper.compare e1 e2 with e | res <;> simp only [hc] at h
    · cases h
    · by_cases h0 : res = 0
      · rw [if_pos h0] at h
        exact ih h
      · rw [if_neg h0] at h
        cases h
    · cases h
    · by_cases h0 : res = 0
      · rw [if_pos h0] at h
        exact ih h
      · rw [if_neg h0] at h
        by_cases hA : d = "Ascending"
        · rw [if_pos hA] at h
          injection h with h
          injection h with h
          omega
        · rw [if_neg hA] at h
          by_cases hD : d = "Descending"
          · rw [if_pos hD] at h
            injection h with h
            injection h with h
            omega
          · rw [if_neg hD] at h
            exact ih h

/-- The loop on a clean list against itself reports a full tie. -/
theorem loop_self {ds : List String} {a : List OrderByItem}
    (h : ∀ e ∈ a, cleanItem e = true) : orderByLoop ds a a = .ok none := by
  induction a generalizing ds with
  | nil => simp [orderByLoop]
  | cons e1 r1 ih =>
    rw [orderByLoop]
    simp only [single_self (h e1 (List.mem_cons_self e1 r1))]
    rw [if_pos trivial]
    exact ih fun e he => h e (List.mem_cons_of_mem _ he)

/-- Under well-formed directions, a full tie forces the two equal-length key
lists to be equal. -/
theorem loop_none_eq {ds : List String} {a b : List OrderByItem}
    (hd : ∀ d ∈ ds, d = "Ascending" ∨ d = "Descending")
    (hlen : a.length = b.length) (h : orderByLoop ds a b = .ok none) : a = b := by
  induction a generalizing ds b with
  | nil =>
    rcases b with _ | ⟨e2, r2⟩
    · rfl
    · cases hlen
  | cons e1 r1 ih =>
    rcases b with _ | ⟨e2, r2⟩
    · cases hlen
    rw [orderByLoop] at h
    have hd2 : ∀ d2 ∈ ds.tail, d2 = "Ascending" ∨ d2 = "Descending" :=
      fun d2 hm => hd d2 (List.mem_of_mem_tail hm)
    rcases ds with _ | ⟨d, ds2⟩ <;>
      rcases hc : OrderByHelper.compare e1 e2 with e | res <;> simp only [hc] at h
    · cases h
    · by_cases h0 : res = 0
      · rw [if_pos h0] at h
        have he : e1 = e2 := (single_sign hc).2.1.mp h0
        rw [he, ih hd2 (by simpa using hlen) h]
      · rw [if_neg h0] at h
        cases h
    · cases h
    · by_cases h0 : res = 0
      · rw [if_pos h0] at h
        have he : e1 = e2 := (single_sign hc).2.1.mp h0
        rw [he, ih hd2 (by simpa using hlen) h]
      · rw [if_neg h0] at h
        rcases hd d (List.mem_cons_self d ds2) with hA | hD
        · rw [if_pos hA] at h
          cases h
        · rw [if_neg (by subst hD; decide), if_pos hD] at h
          cases h

/-- The loop is antisymmetric wherever it succeeds. -/
theorem loop_neg {ds : List String} {a b : List OrderByItem} {x : Option Int}
    (h : orderByLoop ds a b = .ok x) :
    orderByLoop ds b a = .ok (x.map fun r => -r) := by
  induction a generalizing ds b x with
  | nil =>
    rcases b with _ | ⟨e2, r2⟩ <;> simp only [orderByLoop] at h ⊢ <;>
      injection h with h <;> subst h <;> rfl
  | cons e1 r1 ih =>
    rcases b with _ | ⟨e2, r2⟩
    · simp only [orderByLoop] at h ⊢
      injection h with h
      subst h
      rfl
    rw [orderByLoop] at h
    rw [orderByLoop]
    rcases ds with _ | ⟨d, ds2⟩ <;>
      rcases hc : OrderByHelper.compare e1 e2 with e | res <;> simp only [hc] at h
    · cases h
    · simp only [single_neg hc]
      by_cases h0 : res = 0
      · rw [if_pos h0] at h
        rw [if_pos (by omega)]
        exact ih h
      · rw [if_neg h0] at h
        cases h
    · cases h
    · simp only [single_neg hc]
      by_cases h0 : res = 0
      · rw [if_pos h0] at h
        rw [if_pos (by omega)]
        exact ih h
      · rw [if_neg h0] at h
        rw [if_neg (by omega)]
        by_cases hA : d = "Ascending"
        · rw [if_pos hA] at h
          rw [if_pos hA]
          cases h
          rfl
        · rw [if_neg hA] at h
          rw [if_neg hA]
          by_cases hD : d = "Descending"
          · rw [if_pos hD] at h
            rw [if_pos hD]
            cases h
            simp
          · rw [if_neg hD] at h
            rw [if_neg hD]
            exact ih h

/-- With no sort directions at all, the loop never decides. -/
theorem loop_nil_some {a b : List OrderByItem} {r : Int} :
    orderByLoop [] a b ≠ .ok (some r) := by
  induction a generalizing b with
  | nil => simp [orderByLoop]
  | cons e1 r1 ih =>
    rcases b with _ | ⟨e2, r2⟩
    · simp [orderByLoop]
    intro h
    rw [orderByLoop] at h
    rcases hc : OrderByHelper.compare e1 e2 with e | res <;> simp only [hc] at h
    · cases h
    by_cases h0 : res = 0
    · rw [if_pos h0] at h
      exact ih h
    · rw [if_neg h0] at h
      cases h

/-- Strict transitivity of negatively decided loops under well-formed
directions. -/
theorem loop_trans_neg {ds : List String} {a b c : List OrderByItem} {r s : Int}
    (hd : ∀ d ∈ ds, d = "Ascending" ∨ d = "Descending")
    (hab : orderByLoop ds a b = .ok (some r)) (hr : r < 0)
    (hbc : orderByLoop ds b c = .ok (some s)) (hs : s < 0) :
    ∃ t, orderByLoop ds a c = .ok (some t) ∧ t < 0 := by
  induction a generalizing ds b c r s with
  | nil => simp [orderByLoop] at hab
  | cons e1 r1 ih =>
    rcases b with _ | ⟨e2, r2⟩
    · simp [orderByLoop] at hab
    rcases c with _ | ⟨e3, r3⟩
    · simp [orderByLoop] at hbc
    rcases ds with _ | ⟨d, ds2⟩
    · exact absurd hab loop_nil_some
    have hdh : d = "Ascending" ∨ d = "Descending" := hd d (List.mem_cons_self d ds2)
    have hd2 : ∀ d2 ∈ ds2, d2 = "Ascending" ∨ d2 = "Descending" :=
      fun d2 hm => hd d2 (List.mem_cons_of_mem d hm)
    rw [orderByLoop] at hab hbc ⊢
    rcases hc12 : OrderByHelper.compare e1 e2 with e | u <;> simp only [hc12] at hab
    · cases hab
    rcases hc23 : OrderByHelper.compare e2 e3 with e | v <;> simp only [hc23] at hbc
    · cases hbc
    have hcl1 := (clean_of_single_ok hc12).1
    have hcl3 := (clean_of_single_ok hc23).2
    obtain ⟨w, hc13⟩ := single_ok hcl1 hcl3
    simp only [hc13]
    by_cases hu : u = 0
    · have he12 : e1 = e2 := (single_sign hc12).2.1.mp hu
      rw [if_pos hu] at hab
      by_cases hv : v = 0
      · have he23 : e2 = e3 := (single_sign hc23).2.1.mp hv
        have hw : w = 0 := by
          rw [he12, he23] at hc13
          rw [single_self hcl3] at hc13
          injection hc13 with hc13
          omega
        rw [if_pos hv] at hbc
        rw [if_pos hw]
        exact ih hd2 hab hr hbc hs
      · have hw : w = v := by
          rw [he12, hc23] at hc13
          injection hc13 with hc13
          omega
        rw [if_neg hv] at hbc
        rcases hdh with hA | hD
        · rw [if_pos hA] at hbc
          injection hbc with hbc
          injection hbc with hbc
          rw [if_neg (by omega)]
          rw [if_pos hA]
          exact ⟨w, rfl, by omega⟩
        · rw [if_neg (by subst hD; decide), if_pos hD] at hbc
          injection hbc with hbc
          injection hbc with hbc
          rw [if_neg (by omega)]
          rw [if_neg (by subst hD; decide), if_pos hD]
          exact ⟨-w, rfl, by omega⟩
    · rw [if_neg hu] at hab
      by_cases hv : v = 0
      · have he23 : e2 = e3 := (single_sign hc23).2.1.mp hv
        have hw : w = u := by
          rw [← he23] at hc13
          rw [hc12] at hc13
          injection hc13 with hc13
          omega
        rcases hdh with hA | hD
        · rw [if_pos hA] at hab
          injection hab with hab
          injection hab with hab
          rw [if_neg (by omega)]
          rw [if_pos hA]
          exact ⟨w, rfl, by omega⟩
        · rw [if_neg (by subst hD; decide), if_pos hD] at hab
          injection hab with hab
          injection hab with hab
          rw [if_neg (by omega)]
          rw [if_neg (by subst hD; decide), if_pos hD]
          exact ⟨-w, rfl, by omega⟩
      · rw [if_neg hv] at hbc
        rcases hdh with hA | hD
        · rw [if_pos hA] at hab hbc
          injection hab with hab
          injection hab with hab
          injection hbc with hbc
          injection hbc with hbc
          have hk12 : keyLt e1 e2 := (single_sign hc12).1.mp (by omega)
          have hk23 : keyLt e2 e3 := (single_sign hc23).1.mp (by omega)
          have hw : w < 0 := (single_sign hc13).1.mpr (keyLt_trans hk12 hk23)
          rw [if_neg (by omega)]
          rw [if_pos hA]
          exact ⟨w, rfl, hw⟩
        · rw [if_neg (by subst hD; decide), if_pos hD] at hab hbc
          injection hab with hab
          injection hab with hab
          injection hbc with hbc
          injection hbc with hbc
          have hk21 : keyLt e2 e1 := (single_sign hc12).2.2.mp (by omega)
          have hk32 : keyLt e3 e2 := (single_sign hc23).2.2.mp (by omega)
          have hw : 0 < w := (single_sign hc13).2.2.mpr (keyLt_trans hk32 hk21)
          rw [if_neg (by omega)]
          rw [if_neg (by subst hD; decide), if_pos hD]
          exact ⟨-w, rfl, by omega⟩

/-! ### Facts about the partition-range tie-break comparison -/

/-- A successful `_compare_helper` call is either a both-`None` tie, a numeric
comparison, or a string comparison. -/
theorem ch_cases {a b : PyValue} {r : Int} (h : compare_helper a b = .ok r) :
    (a = .null ∧ b = .null ∧ r = 0) ∨
    (∃ x y : ℚ, numv a = some x ∧ numv b = some y ∧
      r = (if y < x then 1 else 0) - (if x < y then 1 else 0)) ∨
    (∃ s1 s2 : String, a = .str s1 ∧ b = .str s2 ∧
      r = (if s2 < s1 then 1 else 0) - (if s1 < s2 then 1 else 0)) := by
  rcases a with _ | b1 | q1 | s1 | t1 <;> rcases b with _ | b2 | q2 | s2 | t2 <;>
    simp_all [compare_helper, pyGt, pyLt, numv] <;>
    first
      | exact Or.inl h.symm
      | exact Or.inr (Or.inl ⟨rfl, rfl, h.symm⟩)
      | exact Or.inr (Or.inr h.symm)

/-! ### Claim theorems -/

/-- C10: for every orderby item whose value is present but is neither None,
a boolean, a number, nor a string, both the type-ordinal and type-string
functions raise a TypeError, every single-key comparison involving such a
value fails with a TypeError, and the unused ordinal 3 is never produced. -/
theorem closed_type_universe :
    ∀ (tag : String) (e : OrderByItem) (o : OrderByItem),
      (∃ m, getTypeOrd (some (.other tag)) = .error (.typeError m)) ∧
      (∃ m, getTypeStr (some (.other tag)) = .error (.typeError m)) ∧
      (∃ m, OrderByHelper.compare (some (.other tag)) e = .error (.typeError m)) ∧
      (∃ m, OrderByHelper.compare e (some (.other tag)) = .error (.typeError m)) ∧
      getTypeOrd o ≠ .ok 3 := by
  intro tag e o
  refine ⟨⟨_, rfl⟩, ⟨_, rfl⟩, ⟨_, rfl⟩, ?_, ?_⟩
  · rcases e with _ | (_ | b | q | s | t2) <;> exact ⟨_, rfl⟩
  · rcases o with _ | (_ | b | q | s | t2) <;> simp [getTypeOrd]

/-- C1 counterexample: under an Ascending direction the orderby comparator
does not return a negative result on the key lists `[Undefined]` and
`[Null]`; it raises a validation error instead, because the type strings
differ. -/
theorem cross_type_rank_counterexample :
    orderByCompare ["Ascending"] ⟨[Option.none], .str ""⟩ ⟨[some .null], .str ""⟩ =
      .error (.valueError "Expected NoValue, but got Null.") ∧
    ∀ r : Int,
      orderByCompare ["Ascending"] ⟨[Option.none], .str ""⟩ ⟨[some .null], .str ""⟩ ≠ .ok r := by
  have h0 : orderByCompare ["Ascending"] ⟨[Option.none], .str ""⟩ ⟨[some .null], .str ""⟩ =
      .error (.valueError "Expected NoValue, but got Null.") := rfl
  refine ⟨h0, fun r h => ?_⟩
  rw [h0] at h
  cases h

/-- C1 amended: the cross-type ranks Undefined < Null < Boolean < Number <
String hold for the comparison path that skips validation — the
non-streaming comparator applied to single-key lists — returning a negative
result under Ascending and a positive one under Descending on each cited
pair; the streaming orderby comparator instead rejects such cross-type pairs
with a validation error (see the counterexample). -/
theorem cross_type_rank_amended :
    (∃ r, nonStreamingCompare ["Ascending"] [Option.none] [some PyValue.null] = .ok r ∧ r < 0) ∧
    (∃ r, nonStreamingCompare ["Ascending"] [some PyValue.null] [some (PyValue.bool true)] =
      .ok r ∧ r < 0) ∧
    (∃ r, nonStreamingCompare ["Ascending"] [some (PyValue.bool true)] [some (PyValue.num 0)] =
      .ok r ∧ r < 0) ∧
    (∃ r, nonStreamingCompare ["Ascending"] [some (PyValue.num 1)] [some (PyValue.str "a")] =
      .ok r ∧ r < 0) ∧
    (∃ r, nonStreamingCompare ["Descending"] [Option.none] [some PyValue.null] = .ok r ∧ 0 < r) ∧
    (∃ r, nonStreamingCompare ["Descending"] [some PyValue.null] [some (PyValue.bool true)] =
      .ok r ∧ 0 < r) ∧
    (∃ r, nonStreamingCompare ["Descending"] [some (PyValue.bool true)] [some (PyValue.num 0)] =
      .ok r ∧ 0 < r) ∧
    (∃ r, nonStreamingCompare ["Descending"] [some (PyValue.num 1)] [some (PyValue.str "a")] =
      .ok r ∧ 0 < r) := by
  refine ⟨⟨-1, ?_, by norm_num⟩, ⟨-1, ?_, by norm_num⟩, ⟨-2, ?_, by norm_num⟩,
    ⟨-1, ?_, by norm_num⟩, ⟨1, ?_, by norm_num⟩, ⟨1, ?_, by norm_num⟩,
    ⟨2, ?_, by norm_num⟩, ⟨1, ?_, by norm_num⟩⟩ <;> rfl

/-- C5 counterexample: the partition-range comparator fails with a TypeError
(returning no comparison result) when exactly one `minInclusive` bound is
None, rather than ordering the None bound lowest. -/
theorem pk_range_none_bound_counterexample :
    pkRangeCompare ⟨[], .null⟩ ⟨[], .str "A"⟩ = .error (.typeError "unorderable types") ∧
    ∀ r : Int, pkRangeCompare ⟨[], .null⟩ ⟨[], .str "A"⟩ ≠ .ok r := by
  have h0 : pkRangeCompare ⟨[], .null⟩ ⟨[], .str "A"⟩ =
      .error (.typeError "unorderable types") := rfl
  refine ⟨h0, fun r h => ?_⟩
  rw [h0] at h
  cases h

/-- C5 amended: the partition-range comparator returns the natural comparison
of the two `minInclusive` bounds when both are present strings, returns 0
when both are None, and raises a TypeError — producing no comparison
result — when exactly one bound is None. -/
theorem pk_range_compare_amended :
    ∀ (l1 l2 : List OrderByItem) (s1 s2 : String) (b : PyValue),
      pkRangeCompare ⟨l1, .null⟩ ⟨l2, .null⟩ = .ok 0 ∧
      pkRangeCompare ⟨l1, .str s1⟩ ⟨l2, .str s2⟩ =
        .ok ((if s2 < s1 then 1 else 0) - (if s1 < s2 then 1 else 0)) ∧
      (b ≠ .null →
        (∃ m, pkRangeCompare ⟨l1, .null⟩ ⟨l2, b⟩ = .error (.typeError m)) ∧
        (∃ m, pkRangeCompare ⟨l1, b⟩ ⟨l2, .null⟩ = .error (.typeError m))) := by
  intro l1 l2 s1 s2 b
  refine ⟨rfl, ?_, ?_⟩
  · simp [pkRangeCompare, compare_helper, pyGt, pyLt]
  · intro hb
    rcases b with _ | b2 | q2 | s3 | t2
    · exact absurd rfl hb
    · exact ⟨⟨_, rfl⟩, ⟨_, rfl⟩⟩
    · exact ⟨⟨_, rfl⟩, ⟨_, rfl⟩⟩
    · exact ⟨⟨_, rfl⟩, ⟨_, rfl⟩⟩
    · exact ⟨⟨_, rfl⟩, ⟨_, rfl⟩⟩

/-- Witness for the amended C5 statement at concrete inputs. -/
theorem pk_range_compare_amended_witness :
    (PyValue.num 0 ≠ PyValue.null) ∧
    (∃ m, pkRangeCompare ⟨[], .null⟩ ⟨[], .num 0⟩ = .error (.typeError m)) ∧
    (∃ m, pkRangeCompare ⟨[], .num 0⟩ ⟨[], .null⟩ = .error (.typeError m)) := by
  have h := pk_range_compare_amended [] [] "a" "b" (.num 0)
  have hb : PyValue.num 0 ≠ PyValue.null := fun hx => by cases hx
  exact ⟨hb, (h.2.2 hb).1, (h.2.2 hb).2⟩

/-- C4 counterexample: on two-key lists that tie at the first position and
differ at the second, the non-streaming comparator reports a tie while the
full orderby comparator decides at the second position, so their ordering
decisions differ. -/
theorem non_streaming_counterexample :
    nonStreamingCompare ["Ascending", "Ascending"]
        [some (PyValue.num 1), some (PyValue.num 1)]
        [some (PyValue.num 1), some (PyValue.num 2)] = .ok 0 ∧
    orderByCompare ["Ascending", "Ascending"]
        ⟨[some (PyValue.num 1), some (PyValue.num 1)], .str "A"⟩
        ⟨[some (PyValue.num 1), some (PyValue.num 2)], .str "B"⟩ = .ok (-1) ∧
    (0 : Int) ≠ -1 := by
  refine ⟨rfl, rfl, ?_⟩
  norm_num

/-- C4 amended: for single-entry sort orders over validated single-key lists,
the non-streaming comparator agrees with the full orderby comparator
whenever the key comparison is non-zero; on a key tie it returns 0 while the
full comparator falls back to the partition-range tie-break. -/
theorem non_streaming_amended
    (d : String) (e1 e2 : OrderByItem) (m1 m2 : PyValue) (r : Int)
    (hv : validate_orderby_items [d] [e1] [e2] = .ok ())
    (hc : OrderByHelper.compare e1 e2 = .ok r)
    (hd : d = "Ascending" ∨ d = "Descending") :
    (r ≠ 0 → nonStreamingCompare [d] [e1] [e2] =
      orderByCompare [d] ⟨[e1], m1⟩ ⟨[e2], m2⟩) ∧
    (r = 0 → nonStreamingCompare [d] [e1] [e2] = .ok 0 ∧
      orderByCompare [d] ⟨[e1], m1⟩ ⟨[e2], m2⟩ = compare_helper m1 m2) := by
  have hv2 : validate_orderby_items [d] (ProducerView.mk [e1] m1).orderByItems
      (ProducerView.mk [e2] m2).orderByItems = .ok () := hv
  constructor
  · intro hr
    rw [orderByCompare_eq_of hv2]
    rcases hd with hA | hD
    · subst hA
      simp [nonStreamingCompare, orderByLoop, hc, hr]
    · subst hD
      simp [nonStreamingCompare, orderByLoop, hc, hr]
  · intro hr
    subst hr
    constructor
    · simp [nonStreamingCompare, hc]
    · rw [orderByCompare_eq_of hv2]
      simp [orderByLoop, hc, pkRangeCompare]

/-- Witness for the amended C4 statement at concrete inputs. -/
theorem non_streaming_amended_witness :
    nonStreamingCompare ["Descending"] [some (PyValue.num 3)] [some (PyValue.num 5)] =
      orderByCompare ["Descending"] ⟨[some (PyValue.num 3)], .str "A"⟩
        ⟨[some (PyValue.num 5)], .str "B"⟩ := by
  have hv : validate_orderby_items ["Descending"] [some (PyValue.num 3)]
      [some (PyValue.num 5)] = .ok () := rfl
  have hc : OrderByHelper.compare (some (PyValue.num 3)) (some (PyValue.num 5)) =
      .ok (-1) := rfl
  exact (non_streaming_amended "Descending" (some (PyValue.num 3)) (some (PyValue.num 5))
    (PyValue.str "A") (PyValue.str "B") (-1) hv hc (Or.inr rfl)).1 (by norm_num)

/-- C8: a producer with at least one remaining item (a buffered item or a
nonempty underlying stream) peeks the same item twice with at most one
underlying fetch, keeps it buffered, and the next advance returns that same
item and clears the buffer without fetching. -/
theorem peek_idempotent_advance {α : Type} (p : DocumentProducer α)
    (h : p.cur_item ≠ Option.none ∨ p.ex.items ≠ []) :
    ∃ x p1, p.peek = .ok (x, p1) ∧ p1.peek = .ok (x, p1) ∧
      p1.cur_item = some x ∧
      p1.ex.fetchCount ≤ p.ex.fetchCount + 1 ∧
      p1.anext = .ok (x, ⟨Option.none, p1.ex⟩) := by
  rcases p with ⟨cur, ⟨items, n⟩⟩
  rcases cur with _ | x
  · rcases items with _ | ⟨x, rest⟩
    · rcases h with h | h <;> exact absurd rfl h
    · exact ⟨x, ⟨some x, ⟨rest, n + 1⟩⟩, rfl, rfl, rfl, Nat.le_refl _, rfl⟩
  · exact ⟨x, ⟨some x, ⟨items, n⟩⟩, rfl, rfl, rfl, Nat.le_succ n, rfl⟩

/-- Witness for C8 at a concrete producer with one unfetched item. -/
theorem peek_idempotent_advance_witness :
    ∃ x p1, (DocumentProducer.mk Option.none (ExContext.mk [5] 0)).peek = .ok (x, p1) ∧
      p1.peek = .ok (x, p1) ∧
      p1.cur_item = some x ∧
      p1.ex.fetchCount ≤ (ExContext.mk ([5] : List ℕ) 0).fetchCount + 1 ∧
      p1.anext = .ok (x, ⟨Option.none, p1.ex⟩) :=
  peek_idempotent_advance ⟨Option.none, ⟨[5], 0⟩⟩ (Or.inr (by simp))

/-- A validation error short-circuits the orderby comparator. -/
theorem orderByCompare_validate_error {so : List String} {p1 p2 : ProducerView} {e : PyErr}
    (h : validate_orderby_items so p1.orderByItems p2.orderByItems = .error e) :
    orderByCompare so p1 p2 = .error e := by
  unfold orderByCompare
  rw [h]

/-- The type-string walk reports the first mismatching position. -/
theorem validateTypes_first_mismatch {pre1 pre2 suf1 suf2 : List OrderByItem}
    {e1 e2 : OrderByItem} {t1 t2 : String}
    (hlen : pre1.length = pre2.length) (hok : validateTypes pre1 pre2 = .ok ())
    (h1 : getTypeStr e1 = .ok t1) (h2 : getTypeStr e2 = .ok t2) (hne : t1 ≠ t2) :
    validateTypes (pre1 ++ e1 :: suf1) (pre2 ++ e2 :: suf2) =
      .error (.valueError ("Expected " ++ t1 ++ ", but got " ++ t2 ++ ".")) := by
  induction pre1 generalizing pre2 with
  | nil =>
    rcases pre2 with _ | ⟨y, pre2⟩
    · simp only [List.nil_append, validateTypes, h1, h2]
      rw [if_pos hne]
    · cases hlen
  | cons x pre1 ih =>
    rcases pre2 with _ | ⟨y, pre2⟩
    · cases hlen
    · obtain ⟨t, hx, hy, hrest⟩ := validateTypes_cons_inv hok
      simp only [List.cons_append, validateTypes, hx, hy]
      rw [if_neg (by simp)]
      exact ih (by simpa using hlen) hrest

/-- C6: the orderby comparator produces no comparison result and fails with a
validation error whenever the two peeked key lists differ in length, or their
length differs from the sort order length, or the observed type strings
differ at some position (all earlier positions agreeing); in the last case
the error message names the expected and the observed type string. -/
theorem validation_failure_on_malformed
    (so : List String) (p1 p2 : ProducerView)
    (pre1 pre2 suf1 suf2 : List OrderByItem) (e1 e2 : OrderByItem) (t1 t2 : String) :
    (p1.orderByItems.length ≠ p2.orderByItems.length →
      orderByCompare so p1 p2 = .error (.valueError "orderByItems cannot have different size")) ∧
    (p1.orderByItems.length = p2.orderByItems.length →
      p1.orderByItems.length ≠ so.length →
      orderByCompare so p1 p2 =
        .error (.valueError "orderByItems cannot have a different size than sort orders.")) ∧
    (p1.orderByItems = pre1 ++ e1 :: suf1 → p2.orderByItems = pre2 ++ e2 :: suf2 →
      pre1.length = pre2.length → validateTypes pre1 pre2 = .ok () →
      p1.orderByItems.length = p2.orderByItems.length →
      p1.orderByItems.length = so.length →
      getTypeStr e1 = .ok t1 → getTypeStr e2 = .ok t2 → t1 ≠ t2 →
      orderByCompare so p1 p2 =
        .error (.valueError ("Expected " ++ t1 ++ ", but got " ++ t2 ++ "."))) := by
  refine ⟨?_, ?_, ?_⟩
  · intro hlen
    apply orderByCompare_validate_error
    unfold validate_orderby_items
    rw [if_pos hlen]
  · intro hlen hso
    apply orderByCompare_validate_error
    unfold validate_orderby_items
    rw [if_neg (by omega), if_pos hso]
  · intro ha hb hlen hok hl2 hl3 h1 h2 hne
    apply orderByCompare_validate_error
    unfold validate_orderby_items
    rw [if_neg (by omega), if_neg (by omega)]
    rw [ha, hb]
    exact validateTypes_first_mismatch hlen hok h1 h2 hne

/-- Witness for C6 at concrete inputs: a one-position type mismatch and the
two length mismatches. -/
theorem validation_failure_on_malformed_witness :
    orderByCompare ["Ascending"] ⟨[some (PyValue.num 1)], .str ""⟩
      ⟨[some PyValue.null], .str ""⟩ =
      .error (.valueError "Expected Number, but got Null.") ∧
    orderByCompare ["Ascending", "Ascending"]
      ⟨[some (PyValue.num 1), some (PyValue.num 2)], .str ""⟩
      ⟨[some (PyValue.num 1)], .str ""⟩ =
      .error (.valueError "orderByItems cannot have different size") := by
  constructor
  · have h := validation_failure_on_malformed ["Ascending"]
      ⟨[some (PyValue.num 1)], .str ""⟩ ⟨[some PyValue.null], .str ""⟩
      [] [] [] [] (some (PyValue.num 1)) (some PyValue.null) "Number" "Null"
    exact h.2.2 rfl rfl rfl rfl rfl rfl rfl rfl (by decide)
  · have h := validation_failure_on_malformed ["Ascending", "Ascending"]
      ⟨[some (PyValue.num 1), some (PyValue.num 2)], .str ""⟩
      ⟨[some (PyValue.num 1)], .str ""⟩ [] [] [] [] Option.none Option.none "" ""
    exact h.1 (by decide)

/-- Position-wise ties make the loop report a full tie. -/
theorem loop_none_of_ties {ds : List String} {a b : List OrderByItem}
    (hties : ∀ pr ∈ a.zip b, OrderByHelper.compare pr.1 pr.2 = .ok 0) :
    orderByLoop ds a b = .ok none := by
  induction a generalizing ds b with
  | nil =>
    rcases b with _ | ⟨e2, r2⟩ <;> simp [orderByLoop]
  | cons e1 r1 ih =>
    rcases b with _ | ⟨e2, r2⟩
    · simp [orderByLoop]
    · rw [orderByLoop]
      have hc : OrderByHelper.compare e1 e2 = .ok 0 :=
        hties (e1, e2) (by simp [List.zip_cons_cons])
      simp only [hc]
      rw [if_pos trivial]
      exact ih fun pr hpr => hties pr (by simp [List.zip_cons_cons, hpr])

/-- C3: when the two producers' key lists validate and tie at every position,
the orderby comparator returns exactly the partition-range comparison of the
two `minInclusive` bounds, which for present (string) bounds is their natural
comparison — so equal-keyed producers are ordered by ascending partition
range lower bound. -/
theorem tie_break_by_min_inclusive
    (so : List String) (p1 p2 : ProducerView) (s1 s2 : String)
    (hv : validate_orderby_items so p1.orderByItems p2.orderByItems = .ok ())
    (hties : ∀ pr ∈ p1.orderByItems.zip p2.orderByItems,
      OrderByHelper.compare pr.1 pr.2 = .ok 0)
    (hm1 : p1.minInclusive = .str s1) (hm2 : p2.minInclusive = .str s2) :
    orderByCompare so p1 p2 = pkRangeCompare p1 p2 ∧
    orderByCompare so p1 p2 =
      .ok ((if s2 < s1 then 1 else 0) - (if s1 < s2 then 1 else 0)) := by
  have hloop : orderByLoop so p1.orderByItems p2.orderByItems = .ok none :=
    loop_none_of_ties hties
  have h1 : orderByCompare so p1 p2 = pkRangeCompare p1 p2 := by
    rw [orderByCompare_eq_of hv, hloop]
  refine ⟨h1, ?_⟩
  rw [h1]
  unfold pkRangeCompare
  rw [hm1, hm2]
  simp [compare_helper, pyGt, pyLt]

/-- Witness for C3 at concrete producers with equal keys and string bounds. -/
theorem tie_break_by_min_inclusive_witness :
    orderByCompare ["Ascending"] ⟨[some (PyValue.num 7)], .str "A"⟩
      ⟨[some (PyValue.num 7)], .str "B"⟩ =
      pkRangeCompare ⟨[some (PyValue.num 7)], .str "A"⟩ ⟨[some (PyValue.num 7)], .str "B"⟩ := by
  have hv : validate_orderby_items ["Ascending"] [some (PyValue.num 7)]
      [some (PyValue.num 7)] = .ok () := rfl
  have hc : OrderByHelper.compare (some (PyValue.num 7)) (some (PyValue.num 7)) = .ok 0 := rfl
  exact (tie_break_by_min_inclusive ["Ascending"] ⟨[some (PyValue.num 7)], .str "A"⟩
    ⟨[some (PyValue.num 7)], .str "B"⟩ "A" "B" hv
    (by intro pr hpr; simp [List.zip_cons_cons] at hpr; rw [hpr]; exact hc)
    rfl rfl).1

/-- A tying prefix is skipped by the loop, consuming one direction per
position. -/
theorem loop_append_ties {pre1 pre2 : List OrderByItem}
    (hlen : pre1.length = pre2.length)
    (hties : ∀ pr ∈ pre1.zip pre2, OrderByHelper.compare pr.1 pr.2 = .ok 0) :
    ∀ (ds : List String) (a b : List OrderByItem),
      orderByLoop ds (pre1 ++ a) (pre2 ++ b) = orderByLoop (ds.drop pre1.length) a b := by
  induction pre1 generalizing pre2 with
  | nil =>
    rcases pre2 with _ | ⟨y, pre2⟩
    · intro ds a b
      simp
    · cases hlen
  | cons x pre1 ih =>
    rcases pre2 with _ | ⟨y, pre2⟩
    · cases hlen
    · intro ds a b
      have hc : OrderByHelper.compare x y = .ok 0 :=
        hties (x, y) (by simp [List.zip_cons_cons])
      rw [List.cons_append, List.cons_append, orderByLoop]
      simp only [hc]
      rw [if_pos trivial]
      rw [ih (by simpa using hlen) (fun pr hpr => hties pr (by simp [List.zip_cons_cons, hpr]))]
      congr 1
      rcases ds with _ | ⟨d, ds2⟩ <;> simp

/-- A non-zero head comparison decides the loop at the head position. -/
theorem loop_head_decided {d : String} {ds : List String} {e1 e2 : OrderByItem}
    {r1 r2 : List OrderByItem} {cmp : Int}
    (hc : OrderByHelper.compare e1 e2 = .ok cmp) (hcne : cmp ≠ 0)
    (hd : d = "Ascending" ∨ d = "Descending") :
    orderByLoop (d :: ds) (e1 :: r1) (e2 :: r2) =
      .ok (some (if d = "Ascending" then cmp else -cmp)) := by
  rw [orderByLoop]
  simp only [hc]
  rw [if_neg hcne]
  rcases hd with hA | hD
  · rw [if_pos hA, if_pos hA]
  · rw [if_neg (by subst hD; decide), if_pos hD, if_neg (by subst hD; decide)]

/-- C2: with validated key lists, the orderby comparison is decided at the
first position whose single-key comparison is non-zero, returning that value
under Ascending and its negation under Descending; the loop's value equals
its value on the lists truncated just past the deciding position, so later
positions are never consulted by the comparison. -/
theorem first_difference_decides
    (so pres sufs : List String) (d : String) (p1 p2 : ProducerView)
    (pre1 pre2 suf1 suf2 : List OrderByItem) (e1 e2 : OrderByItem) (cmp : Int)
    (hso : so = pres ++ d :: sufs)
    (ha : p1.orderByItems = pre1 ++ e1 :: suf1)
    (hb : p2.orderByItems = pre2 ++ e2 :: suf2)
    (hi1 : pre1.length = pres.length) (hi2 : pre2.length = pres.length)
    (hv : validate_orderby_items so p1.orderByItems p2.orderByItems = .ok ())
    (hties : ∀ pr ∈ pre1.zip pre2, OrderByHelper.compare pr.1 pr.2 = .ok 0)
    (hc : OrderByHelper.compare e1 e2 = .ok cmp) (hcne : cmp ≠ 0)
    (hd : d = "Ascending" ∨ d = "Descending") :
    (d = "Ascending" → orderByCompare so p1 p2 = .ok cmp) ∧
    (d = "Descending" → orderByCompare so p1 p2 = .ok (-cmp)) ∧
    orderByLoop so p1.orderByItems p2.orderByItems =
      orderByLoop (pres ++ [d]) (pre1 ++ [e1]) (pre2 ++ [e2]) := by
  have hlen12 : pre1.length = pre2.length := hi1.trans hi2.symm
  have hdrop : (pres ++ d :: sufs).drop pre1.length = d :: sufs := by
    rw [hi1]
    exact List.drop_left pres (d :: sufs)
  have hdrop2 : (pres ++ [d]).drop pre1.length = [d] := by
    rw [hi1]
    exact List.drop_left pres [d]
  have hloop : orderByLoop so p1.orderByItems p2.orderByItems =
      .ok (some (if d = "Ascending" then cmp else -cmp)) := by
    rw [hso, ha, hb, loop_append_ties hlen12 hties, hdrop]
    exact loop_head_decided hc hcne hd
  have htrunc : orderByLoop (pres ++ [d]) (pre1 ++ [e1]) (pre2 ++ [e2]) =
      .ok (some (if d = "Ascending" then cmp else -cmp)) := by
    rw [loop_append_ties hlen12 hties, hdrop2]
    exact loop_head_decided hc hcne hd
  refine ⟨?_, ?_, hloop.trans htrunc.symm⟩
  · intro hA
    rw [orderByCompare_eq_of hv, hloop, if_pos hA]
  · intro hD
    rw [orderByCompare_eq_of hv, hloop, if_neg (by subst hD; decide)]

/-- Witness for C2: the second position decides under a Descending direction
at concrete inputs. -/
theorem first_difference_decides_witness :
    orderByCompare ["Ascending", "Descending"]
      ⟨[some (PyValue.num 1), some (PyValue.num 5)], .str "A"⟩
      ⟨[some (PyValue.num 1), some (PyValue.num 3)], .str "B"⟩ = .ok (-1) := by
  have hv : validate_orderby_items ["Ascending", "Descending"]
      [some (PyValue.num 1), some (PyValue.num 5)]
      [some (PyValue.num 1), some (PyValue.num 3)] = .ok () := rfl
  have hc : OrderByHelper.compare (some (PyValue.num 5)) (some (PyValue.num 3)) = .ok 1 := rfl
  have h0 : OrderByHelper.compare (some (PyValue.num 1)) (some (PyValue.num 1)) = .ok 0 := rfl
  exact (first_difference_decides ["Ascending", "Descending"] ["Ascending"] [] "Descending"
    ⟨[some (PyValue.num 1), some (PyValue.num 5)], .str "A"⟩
    ⟨[some (PyValue.num 1), some (PyValue.num 3)], .str "B"⟩
    [some (PyValue.num 1)] [some (PyValue.num 1)] [] []
    (some (PyValue.num 5)) (some (PyValue.num 3)) 1
    rfl rfl rfl rfl rfl hv
    (by intro pr hpr; simp [List.zip_cons_cons] at hpr; rw [hpr]; exact h0)
    hc (by norm_num) (Or.inr rfl)).2.1 rfl

theorem cmp2_le_zero_iff {α : Type} [LinearOrder α] (a b : α)
    [dba : Decidable (b < a)] [dab : Decidable (a < b)] :
    ((if b < a then (1 : Int) else 0) - (if a < b then 1 else 0)) ≤ 0 ↔ a ≤ b := by
  rcases lt_trichotomy a b with h | h | h
  · rw [if_neg (lt_asymm h), if_pos h]
    constructor
    · intro _
      exact le_of_lt h
    · intro _
      norm_num
  · subst h
    rw [if_neg (lt_irrefl a), if_neg (lt_irrefl a)]
    constructor
    · intro _
      exact le_refl a
    · intro _
      norm_num
  · rw [if_pos h, if_neg (lt_asymm h)]
    constructor
    · intro hx
      norm_num at hx
    · intro hx
      exact absurd hx (not_le.mpr h)

/-- The tie-break comparison is transitive in the non-positive direction
wherever all three pairwise calls succeed. -/
theorem ch_trans_le {m1 m2 m3 : PyValue} {r s t : Int}
    (h1 : compare_helper m1 m2 = .ok r) (h2 : compare_helper m2 m3 = .ok s)
    (h3 : compare_helper m1 m3 = .ok t) (hr : r ≤ 0) (hs : s ≤ 0) : t ≤ 0 := by
  rcases ch_cases h1 with ⟨ha1, hb1, hr0⟩ | ⟨x, y, hx1, hy1, hrv⟩ | ⟨s1, s2, ha1, hb1, hrv⟩ <;>
    rcases ch_cases h2 with ⟨ha2, hb2, hs0⟩ | ⟨y2, z, hy2, hz2, hsv⟩ | ⟨s2b, s3, ha2, hb2, hsv⟩ <;>
      rcases ch_cases h3 with ⟨ha3, hb3, ht0⟩ | ⟨x2, z2, hx3, hz3, htv⟩ | ⟨s1b, s3b, ha3, hb3, htv⟩ <;>
        first
          | omega
          | (rw [hx1] at hx3
             rw [hy1] at hy2
             rw [hz2] at hz3
             injection hx3 with hx3
             injection hy2 with hy2
             injection hz3 with hz3
             subst hx3
             subst hy2
             subst hz3
             rw [hrv, cmp2_le_zero_iff] at hr
             rw [hsv, cmp2_le_zero_iff] at hs
             rw [htv, cmp2_le_zero_iff]
             exact le_trans hr hs)
          | (rw [ha1] at ha3
             rw [hb1] at ha2
             rw [hb2] at hb3
             injection ha3 with ha3
             injection ha2 with ha2
             injection hb3 with hb3
             subst ha3
             subst ha2
             subst hb3
             rw [hrv, cmp2_le_zero_iff] at hr
             rw [hsv, cmp2_le_zero_iff] at hs
             rw [htv, cmp2_le_zero_iff]
             exact le_trans hr hs)
          | (exfalso
             clear h1 h2 h3 hr hs
             simp_all [numv]
             done)

/-- C7: wherever the orderby comparator succeeds on all pairwise
comparisons of three producers under a well-formed sort order, it is
antisymmetric — `compare(p2, p1) = -compare(p1, p2)` — and the induced
ordering is transitive: non-positive results compose. -/
theorem orderby_compare_total_order
    (so : List String) (p1 p2 p3 : ProducerView) (r12 r23 r13 : Int)
    (hd : ∀ d ∈ so, d = "Ascending" ∨ d = "Descending")
    (h12 : orderByCompare so p1 p2 = .ok r12)
    (h23 : orderByCompare so p2 p3 = .ok r23)
    (h13 : orderByCompare so p1 p3 = .ok r13) :
    orderByCompare so p2 p1 = .ok (-r12) ∧ (r12 ≤ 0 → r23 ≤ 0 → r13 ≤ 0) := by
  obtain ⟨hv12, hc12⟩ := orderByCompare_inv h12
  obtain ⟨hv23, hc23⟩ := orderByCompare_inv h23
  obtain ⟨hv13, hc13⟩ := orderByCompare_inv h13
  obtain ⟨hl12, hlso, hvt12⟩ := validate_inv hv12
  obtain ⟨hl23, hlso23, hvt23⟩ := validate_inv hv23
  constructor
  · have hv21 := validate_symm hv12
    rw [orderByCompare_eq_of hv21]
    rcases hc12 with hsome | ⟨hnone, hpk⟩
    · rw [loop_neg hsome]
      rfl
    · rw [loop_neg hnone]
      show pkRangeCompare p2 p1 = .ok (-r12)
      exact compare_helper_neg hpk
  · intro hr12 hr23
    rcases hc12 with h12s | ⟨h12n, hpk12⟩
    · have h12lt : r12 < 0 := by
        have := loop_some_ne_zero h12s
        omega
      rcases hc23 with h23s | ⟨h23n, hpk23⟩
      · have h23lt : r23 < 0 := by
          have := loop_some_ne_zero h23s
          omega
        obtain ⟨t, hts, htlt⟩ := loop_trans_neg hd h12s h12lt h23s h23lt
        rcases hc13 with h13s | ⟨h13n, hpk13⟩
        · rw [hts] at h13s
          injection h13s with hx
          injection hx with hx
          omega
        · rw [hts] at h13n
          injection h13n with hx
          cases hx
      · have heq23 : p2.orderByItems = p3.orderByItems := loop_none_eq hd hl23 h23n
        rcases hc13 with h13s | ⟨h13n, hpk13⟩
        · rw [← heq23] at h13s
          rw [h12s] at h13s
          injection h13s with hx
          injection hx with hx
          omega
        · rw [← heq23] at h13n
          rw [h12s] at h13n
          injection h13n with hx
          cases hx
    · have heq12 : p1.orderByItems = p2.orderByItems := loop_none_eq hd hl12 h12n
      rcases hc23 with h23s | ⟨h23n, hpk23⟩
      · rcases hc13 with h13s | ⟨h13n, hpk13⟩
        · rw [heq12] at h13s
          rw [h23s] at h13s
          injection h13s with hx
          injection hx with hx
          omega
        · rw [heq12] at h13n
          rw [h23s] at h13n
          injection h13n with hx
          cases hx
      · have heq23 : p2.orderByItems = p3.orderByItems := loop_none_eq hd hl23 h23n
        rcases hc13 with h13s | ⟨h13n, hpk13⟩
        · rw [heq12, heq23] at h13s
          rw [heq23] at h23n
          rw [h23n] at h13s
          injection h13s with hx
          cases hx
        · exact ch_trans_le hpk12 hpk23 hpk13 hr12 hr23

/-- Witness for C7 at three concrete producers with numeric keys. -/
theorem orderby_compare_total_order_witness :
    orderByCompare ["Ascending"] ⟨[some (PyValue.num 2)], .str "B"⟩
      ⟨[some (PyValue.num 1)], .str "A"⟩ = .ok (- -1) ∧
    ((-1 : Int) ≤ 0 → (-1 : Int) ≤ 0 → (-1 : Int) ≤ 0) := by
  have h12 : orderByCompare ["Ascending"] ⟨[some (PyValue.num 1)], .str "A"⟩
      ⟨[some (PyValue.num 2)], .str "B"⟩ = .ok (-1) := rfl
  have h23 : orderByCompare ["Ascending"] ⟨[some (PyValue.num 2)], .str "B"⟩
      ⟨[some (PyValue.num 3)], .str "C"⟩ = .ok (-1) := rfl
  have h13 : orderByCompare ["Ascending"] ⟨[some (PyValue.num 1)], .str "A"⟩
      ⟨[some (PyValue.num 3)], .str "C"⟩ = .ok (-1) := rfl
  exact orderby_compare_total_order ["Ascending"] ⟨[some (PyValue.num 1)], .str "A"⟩
    ⟨[some (PyValue.num 2)], .str "B"⟩ ⟨[some (PyValue.num 3)], .str "C"⟩ (-1) (-1) (-1)
    (by intro d hdm; simp at hdm; subst hdm; exact Or.inl rfl) h12 h23 h13

/-! ### Facts about the merge coordinator model -/

/-- The coordinator's comparator always succeeds on live producers, and its
sign bounds the peeked keys. -/
theorem mergeCompare_spec (p q : MergeProducer) :
    ∃ r, mergeCompare p q = .ok r ∧ (r < 0 → p.peeked ≤ q.peeked) ∧
      (0 ≤ r → q.peeked ≤ p.peeked) := by
  have hv2 : validate_orderby_items ["Ascending"] (MergeProducer.toView p).orderByItems
      (MergeProducer.toView q).orderByItems = .ok () := rfl
  rcases lt_trichotomy p.peeked q.peeked with h | h | h
  · have hc : OrderByHelper.compare (some (PyValue.num p.peeked))
        (some (PyValue.num q.peeked)) = .ok (-1) := by
      simp [OrderByHelper.compare, getTypeOrd, compare_helper, pyGt, pyLt, h, lt_asymm h]
    refine ⟨-1, ?_, fun _ => le_of_lt h, fun hx => absurd hx (by norm_num)⟩
    show orderByCompare ["Ascending"] p.toView q.toView = .ok (-1)
    rw [orderByCompare_eq_of hv2]
    have hl : orderByLoop ["Ascending"] (MergeProducer.toView p).orderByItems
        (MergeProducer.toView q).orderByItems = .ok (some (-1)) := by
      show orderByLoop ["Ascending"] [some (PyValue.num p.peeked)]
        [some (PyValue.num q.peeked)] = _
      have hld : orderByLoop ["Ascending"] [some (PyValue.num p.peeked)]
          [some (PyValue.num q.peeked)] =
          .ok (some (if "Ascending" = "Ascending" then (-1 : Int) else -(-1))) :=
        loop_head_decided hc (by norm_num) (Or.inl rfl)
      simpa using hld
    rw [hl]
  · have hc : OrderByHelper.compare (some (PyValue.num p.peeked))
        (some (PyValue.num q.peeked)) = .ok 0 := by
      rw [h]
      exact single_self rfl
    have hl : orderByLoop ["Ascending"] (MergeProducer.toView p).orderByItems
        (MergeProducer.toView q).orderByItems = .ok none := by
      show orderByLoop ["Ascending"] [some (PyValue.num p.peeked)]
        [some (PyValue.num q.peeked)] = _
      apply loop_none_of_ties
      intro pr hpr
      simp [List.zip_cons_cons] at hpr
      rw [hpr]
      exact hc
    have hpk : ∃ w, pkRangeCompare p.toView q.toView = .ok w := by
      simp [pkRangeCompare, MergeProducer.toView, compare_helper, pyGt, pyLt]
    obtain ⟨w, hw⟩ := hpk
    refine ⟨w, ?_, fun _ => le_of_eq h, fun _ => le_of_eq h.symm⟩
    show orderByCompare ["Ascending"] p.toView q.toView = .ok w
    rw [orderByCompare_eq_of hv2, hl]
    exact hw
  · have hc : OrderByHelper.compare (some (PyValue.num p.peeked))
        (some (PyValue.num q.peeked)) = .ok 1 := by
      simp [OrderByHelper.compare, getTypeOrd, compare_helper, pyGt, pyLt, h, lt_asymm h]
    refine ⟨1, ?_, fun hx => absurd hx (by norm_num), fun _ => le_of_lt h⟩
    show orderByCompare ["Ascending"] p.toView q.toView = .ok 1
    rw [orderByCompare_eq_of hv2]
    have hl : orderByLoop ["Ascending"] (MergeProducer.toView p).orderByItems
        (MergeProducer.toView q).orderByItems = .ok (some 1) := by
      show orderByLoop ["Ascending"] [some (PyValue.num p.peeked)]
        [some (PyValue.num q.peeked)] = _
      have hld : orderByLoop ["Ascending"] [some (PyValue.num p.peeked)]
          [some (PyValue.num q.peeked)] =
          .ok (some (if "Ascending" = "Ascending" then (1 : Int) else -1)) :=
        loop_head_decided hc (by norm_num) (Or.inl rfl)
      simpa using hld
    rw [hl]

/-- The minimum-extraction scan always succeeds, returns a permutation of the
live set, and its result's peeked key is minimal. -/
theorem extractMin_spec : ∀ (rest : List MergeProducer) (b : MergeProducer),
    ∃ m others, extractMin b rest = .ok (m, others) ∧
      List.Perm (m :: others) (b :: rest) ∧
      ∀ q ∈ b :: rest, m.peeked ≤ q.peeked := by
  intro rest
  induction rest with
  | nil =>
    intro b
    refine ⟨b, [], rfl, List.Perm.refl _, ?_⟩
    intro q hq
    rcases List.mem_cons.mp hq with rfl | hq
    · exact le_refl _
    · cases hq
  | cons c rest ih =>
    intro b
    obtain ⟨r, hr, hneg, hpos⟩ := mergeCompare_spec c b
    by_cases hlt : r < 0
    · obtain ⟨m, others, hext, hperm, hmin⟩ := ih c
      refine ⟨m, b :: others, ?_, ?_, ?_⟩
      · simp only [extractMin, hr]
        rw [if_pos hlt]
        simp only [hext]
      · exact (List.Perm.swap b m others).trans (hperm.cons b)
      · intro q hq
        rcases List.mem_cons.mp hq with hq1 | hq1
        · rw [hq1]
          exact le_trans (hmin c (List.mem_cons_self c rest)) (hneg hlt)
        · exact hmin q hq1
    · obtain ⟨m, others, hext, hperm, hmin⟩ := ih b
      refine ⟨m, c :: others, ?_, ?_, ?_⟩
      · simp only [extractMin, hr]
        rw [if_neg hlt]
        simp only [hext]
      · exact ((List.Perm.swap c m others).trans (hperm.cons c)).trans (List.Perm.swap b c rest)
      · intro q hq
        rcases List.mem_cons.mp hq with hq1 | hq1
        · rw [hq1]
          exact hmin b (List.mem_cons_self b rest)
        · rcases List.mem_cons.mp hq1 with hq2 | hq2
          · rw [hq2]
            exact le_trans (hmin b (List.mem_cons_self b rest)) (hpos (by omega))
          · exact hmin q (List.mem_cons_of_mem b hq2)

/-- The total item count over an appended live set. -/
theorem sizeOfPs_append (l1 l2 : List MergeProducer) :
    sizeOfPs (l1 ++ l2) = sizeOfPs l1 + sizeOfPs l2 := by
  unfold sizeOfPs
  rw [List.map_append, List.sum_append]

/-- The total item count is invariant under permutation of the live set. -/
theorem sizeOfPs_perm {l1 l2 : List MergeProducer} (h : List.Perm l1 l2) :
    sizeOfPs l1 = sizeOfPs l2 :=
  List.Perm.sum_eq (h.map fun p => 1 + p.rest.length)

/-- Advancing a producer sheds exactly its peeked item. -/
theorem sizeOfPs_advance (m : MergeProducer) : sizeOfPs m.advance = m.rest.length := by
  rcases m with ⟨mi, pk, rest⟩
  rcases rest with _ | ⟨x, r⟩ <;> simp [MergeProducer.advance, sizeOfPs] <;> omega

/-- The stream remaining after advancing a producer is its former rest. -/
theorem advance_flatMap (m : MergeProducer) : m.advance.flatMap pStream = m.rest := by
  rcases m with ⟨mi, pk, rest⟩
  rcases rest with _ | ⟨x, r⟩ <;> simp [MergeProducer.advance, pStream]

/-- Advancing preserves local sortedness. -/
theorem advance_sorted {m : MergeProducer} (h : List.Sorted (· ≤ ·) (pStream m)) :
    ∀ q ∈ m.advance, List.Sorted (· ≤ ·) (pStream q) := by
  rcases m with ⟨mi, pk, rest⟩
  rcases rest with _ | ⟨x, r⟩
  · intro q hq
    cases hq
  · intro q hq
    rcases List.mem_cons.mp hq with rfl | hq
    · exact (List.sorted_cons.mp h).2
    · cases hq

/-- A live set with zero remaining items is empty. -/
theorem sizeOfPs_eq_zero {ps : List MergeProducer} (h : sizeOfPs ps = 0) : ps = [] := by
  rcases ps with _ | ⟨p, rest⟩
  · rfl
  · exfalso
    simp [sizeOfPs] at h

/-- The selection loop succeeds with sufficient fuel on locally-sorted
producers, and its output is a sorted permutation of all remaining items. -/
theorem mergeRun_spec : ∀ (fuel : Nat) (ps : List MergeProducer),
    sizeOfPs ps ≤ fuel → (∀ p ∈ ps, List.Sorted (· ≤ ·) (pStream p)) →
    ∃ out, mergeRun fuel ps = .ok out ∧ List.Sorted (· ≤ ·) out ∧
      List.Perm out (ps.flatMap pStream) := by
  intro fuel
  induction fuel with
  | zero =>
    intro ps hsz _
    have hz : sizeOfPs ps = 0 := Nat.le_zero.mp hsz
    rw [sizeOfPs_eq_zero hz]
    exact ⟨[], rfl, List.sorted_nil, by simp⟩
  | succ fuel ih =>
    intro ps hsz hwf
    rcases ps with _ | ⟨p, rest⟩
    · exact ⟨[], rfl, List.sorted_nil, by simp⟩
    obtain ⟨m, others, hext, hperm, hmin⟩ := extractMin_spec rest p
    have hmem_sub : ∀ q ∈ m :: others, q ∈ p :: rest := fun q hq => hperm.subset hq
    have hm_mem : m ∈ p :: rest := hmem_sub m (List.mem_cons_self m others)
    have hsz_eq : sizeOfPs (m :: others) = sizeOfPs (p :: rest) := sizeOfPs_perm hperm
    have hsz_cons : sizeOfPs (m :: others) = (1 + m.rest.length) + sizeOfPs others := by
      simp [sizeOfPs]
    have hsz2 : sizeOfPs (m.advance ++ others) ≤ fuel := by
      rw [sizeOfPs_append, sizeOfPs_advance]
      have h1 : sizeOfPs (p :: rest) ≤ fuel + 1 := hsz
      omega
    have hwf2 : ∀ q ∈ m.advance ++ others, List.Sorted (· ≤ ·) (pStream q) := by
      intro q hq
      rcases List.mem_append.mp hq with hq | hq
      · exact advance_sorted (hwf m hm_mem) q hq
      · exact hwf q (hmem_sub q (List.mem_cons_of_mem m hq))
    obtain ⟨out, hrun, hsout, hpout⟩ := ih (m.advance ++ others) hsz2 hwf2
    refine ⟨m.peeked :: out, ?_, ?_, ?_⟩
    · show mergeRun (fuel + 1) (p :: rest) = _
      rw [mergeRun]
      simp only [hext, hrun]
    · rw [List.sorted_cons]
      refine ⟨?_, hsout⟩
      intro b hb
      have hbmem : b ∈ (m.advance ++ others).flatMap pStream := hpout.subset hb
      obtain ⟨q, hq, hbq⟩ := List.mem_flatMap.mp hbmem
      rcases List.mem_append.mp hq with hq | hq
      · have hsm := hwf m hm_mem
        rcases hm : m.rest with _ | ⟨x, r⟩
        · rw [show m.advance = [] from by rw [MergeProducer.advance, hm]] at hq
          cases hq
        · rw [show m.advance = [⟨m.minInclusive, x, r⟩] from by
            rw [MergeProducer.advance, hm]] at hq
          rcases List.mem_cons.mp hq with hq1 | hq1
          · have hbrest : b ∈ m.rest := by
              rw [hm]
              rw [hq1] at hbq
              exact hbq
            exact (List.sorted_cons.mp hsm).1 b hbrest
          · cases hq1
      · have hq2 : q ∈ p :: rest := hmem_sub q (List.mem_cons_of_mem m hq)
        have hle : m.peeked ≤ q.peeked := hmin q hq2
        rcases List.mem_cons.mp hbq with hb1 | hb1
        · rw [hb1]
          exact hle
        · exact le_trans hle ((List.sorted_cons.mp (hwf q hq2)).1 b hb1)
    · have hstep : m.peeked :: (m.advance ++ others).flatMap pStream =
          (m :: others).flatMap pStream := by
        rw [List.flatMap_append]
        rw [advance_flatMap]
        show m.peeked :: (m.rest ++ others.flatMap pStream) = pStream m ++ others.flatMap pStream
        rw [pStream]
        rfl
      have h1 : List.Perm (m.peeked :: out)
          (m.peeked :: (m.advance ++ others).flatMap pStream) := hpout.cons _
      rw [hstep] at h1
      exact h1.trans (hperm.flatMap_right pStream)

/-- The initial producers' remaining items are exactly all partitions' items
in partition order (exhausted partitions contribute nothing). -/
theorem initProducers_flatMap (streams : List (String × List (List ℚ))) :
    (initProducers streams).flatMap pStream = streams.flatMap fun s => s.2.flatten := by
  induction streams with
  | nil => rfl
  | cons s streams ih =>
    rcases hf : s.2.flatten with _ | ⟨x, r⟩
    · have hstep : initProducers (s :: streams) = initProducers streams := by
        simp only [initProducers, List.filterMap_cons, hf]
      rw [hstep, ih, List.flatMap_cons, hf, List.nil_append]
    · have hstep : initProducers (s :: streams) =
          MergeProducer.mk s.1 x r :: initProducers streams := by
        simp only [initProducers, List.filterMap_cons, hf]
      rw [hstep, List.flatMap_cons, ih, List.flatMap_cons, hf]
      rfl

/-- Initial producers are locally sorted when their partitions are. -/
theorem initProducers_sorted {streams : List (String × List (List ℚ))}
    (hs : ∀ s ∈ streams, List.Sorted (· ≤ ·) s.2.flatten) :
    ∀ p ∈ initProducers streams, List.Sorted (· ≤ ·) (pStream p) := by
  intro p hp
  unfold initProducers at hp
  obtain ⟨s, hsmem, hmk⟩ := List.mem_filterMap.mp hp
  rcases hf : s.2.flatten with _ | ⟨x, r⟩ <;> rw [hf] at hmk
  · cases hmk
  · injection hmk with hmk
    rw [← hmk]
    show List.Sorted (· ≤ ·) (x :: r)
    rw [← hf]
    exact hs s hsmem

/-- C9: for partitions supplying locally ascending-sorted items in pages of
arbitrary sizes, the coordinator's merged output is exactly the ascending
sort of the concatenation of all partitions' items — page boundaries and
empty partitions do not affect it. -/
theorem merge_output_sorted
    (streams : List (String × List (List ℚ)))
    (hsorted : ∀ s ∈ streams, List.Sorted (· ≤ ·) s.2.flatten) :
    mergeRun (sizeOfPs (initProducers streams)) (initProducers streams) =
      .ok (List.insertionSort (· ≤ ·) (streams.flatMap fun s => s.2.flatten)) := by
  obtain ⟨out, hrun, hsout, hpout⟩ := mergeRun_spec (sizeOfPs (initProducers streams))
    (initProducers streams) (le_refl _) (initProducers_sorted hsorted)
  rw [hrun]
  congr 1
  have hperm : List.Perm out (streams.flatMap fun s => s.2.flatten) := by
    rw [← initProducers_flatMap]
    exact hpout
  have hperm2 : List.Perm out
      (List.insertionSort (· ≤ ·) (streams.flatMap fun s => s.2.flatten)) :=
    hperm.trans (List.perm_insertionSort (· ≤ ·) _).symm
  exact List.eq_of_perm_of_sorted hperm2 hsout
    (List.sorted_insertionSort (· ≤ ·) _)

/-- Witness for C9: the spec's three-partition example, with one partition
split across two pages. -/
theorem merge_output_sorted_witness :
    mergeRun (sizeOfPs (initProducers [("A", [[1, 4]]), ("B", [[2], [5]]), ("C", [[3, 6]])]))
      (initProducers [("A", [[(1 : ℚ), 4]]), ("B", [[2], [5]]), ("C", [[3, 6]])]) =
      .ok (List.insertionSort (· ≤ ·)
        ([("A", [[(1 : ℚ), 4]]), ("B", [[2], [5]]), ("C", [[3, 6]])].flatMap
          fun s => s.2.flatten)) := by
  apply merge_output_sorted
  intro s hs
  simp at hs
  rcases hs with hs | hs | hs <;> rw [hs] <;> decide

end CosmosMerge
